import Mathlib

/-!
Shallow embedding of the document-translation pipeline of this repository
(the Python bot inside src/index.js) and of the request handlers, together
with proofs about the pipeline's pagination, chunking, shaping and assembly
behaviour.

Text is modelled as `List Char` (one entry per code point, so `List.length`
agrees with Python's `len`).  Python's `str.strip` is modelled for the ASCII
whitespace characters, and `str.splitlines` is modelled for the newline
terminator, the only one the pipeline produces.  External collaborators
(the OCR engine, the translation service, the glyph reshaper and the
bidirectional-ordering pass) are abstract function parameters.
-/

abbrev Str := List Char

def str (x : String) : Str := x.data

def nl : Char := '\n'

def isWs (c : Char) : Bool :=
  c = ' ' || c = '\t' || c = '\n' || c = '\r' || c = '\x0b' || c = '\x0c'

/-- Left trim: Python's `str.lstrip()`. -/
def trimL (u : Str) : Str := u.dropWhile isWs

/-- Right trim: Python's `str.rstrip()`. -/
def trimR (u : Str) : Str := (u.reverse.dropWhile isWs).reverse

/-- Python's `str.strip()`. -/
def pyStrip (u : Str) : Str := trimR (trimL u)

/-- Python's `str.split("\n")`. -/
def splitNL : Str → List Str
  | [] => [[]]
  | c :: rest =>
    if c = nl then [] :: splitNL rest
    else
      match splitNL rest with
      | [] => [[c]]
      | p :: ps => (c :: p) :: ps

/-- Python's `str.splitlines()` for newline-terminated text: like splitting on
the newline character, except that a trailing newline terminates the last line
instead of opening an empty one, and an empty string has no lines. -/
def pySplitlines (u : Str) : List Str :=
  let ps := splitNL u
  if ps.getLast? = some [] then ps.dropLast else ps

/-- Python's `sep.join(xs)`. -/
def joinSep (sep : Str) : List Str → Str
  | [] => []
  | [x] => x
  | x :: xs => x ++ sep ++ joinSep sep xs

/-- Python's `"\n".join(xs)`. -/
def joinNL : List Str → Str := joinSep [nl]

/-- The subsequence of non-whitespace characters of a string. -/
def nonWs (u : Str) : Str := u.filter (fun c => !isWs c)

/-- Newline-terminated join: each line followed by a newline, as the
pagination buffer accumulates them. -/
def joinNLt (g : List Str) : Str := (g.map (fun l => l ++ [nl])).flatten

/-- Number of lines of a string, in Python's `splitlines` sense. -/
def pyLineCount (u : Str) : Nat := (pySplitlines u).length

/-- The characters of a string with the newline characters removed. -/
def dropNL (u : Str) : Str := u.filter (fun c => c != nl)

/-- The RTL shaper `prepare_arabic_for_pdf` of src/index.js: reshape + bidi
each line (the composed external reshaping pass is the parameter `shape`),
blank lines pass through as empty lines, lines re-joined with newline. -/
def prepare_arabic_for_pdf (shape : Str → Str) (text : Str) : Str :=
  joinNL ((pySplitlines text).map (fun line => if pyStrip line = [] then [] else shape line))

/-- The page-splitting loop of `split_for_pdf` of src/index.js:
`for line in lines: if len(buf)+len(line)+1 <= max_chars: buf += line+"\n"
else: pages.append(buf.strip()); buf = line+"\n"`, then a final
`if buf.strip(): pages.append(buf.strip())`. -/
def split_for_pdf_loop (maxChars : Nat) : List Str → List Str → Str → List Str
  | [], pages, buf => if pyStrip buf ≠ [] then pages ++ [pyStrip buf] else pages
  | line :: rest, pages, buf =>
    if buf.length + line.length + 1 ≤ maxChars then
      split_for_pdf_loop maxChars rest pages (buf ++ line ++ [nl])
    else
      split_for_pdf_loop maxChars rest (pages ++ [pyStrip buf]) (line ++ [nl])

/-- The paginator `split_for_pdf` of src/index.js: strip the text; if it already fits the
capacity return it as the only page (one empty page for empty text);
otherwise run the line-packing loop over its lines. -/
def split_for_pdf (text : Str) (maxChars : Nat) : List Str :=
  let t := pyStrip text
  if t.length ≤ maxChars then (if t ≠ [] then [t] else [[]])
  else split_for_pdf_loop maxChars (pySplitlines t) [] []

/-- Fuel-driven slicing loop behind `hardSlices`; with fuel at least the
length of `p` and a positive step it peels `m` characters per round. -/
def hardSlicesGo : Nat → Str → Nat → List Str
  | 0, _, _ => []
  | _ + 1, [], _ => []
  | fuel + 1, c :: p, m => (c :: p).take m :: hardSlicesGo fuel ((c :: p).drop m) m

/-- The hard split of an over-long paragraph in `translate_chunked` of
src/index.js: `for i in range(0, len(p), m): chunks.append(p[i : i + m])`.
(A zero step is a Python error; the model returns no slices then.) -/
def hardSlices (p : Str) (m : Nat) : List Str :=
  if m = 0 then [] else hardSlicesGo p.length p m

/-- The paragraph-packing loop of `translate_chunked` of src/index.js:
greedily pack paragraphs into `buf`; on overflow flush a non-empty `buf`,
then either start `buf` afresh from the paragraph or hard-split an over-long
paragraph into fixed-size slices.  Returns the flushed chunks and the final
buffer. -/
def tc_loop (m : Nat) : List Str → List Str → Str → List Str × Str
  | [], chunks, buf => (chunks, buf)
  | p :: rest, chunks, buf =>
    if buf.length + p.length + 1 ≤ m then
      tc_loop m rest chunks (pyStrip (buf ++ nl :: p))
    else
      let chunks1 := if buf ≠ [] then chunks ++ [buf] else chunks
      if p.length ≤ m then tc_loop m rest chunks1 p
      else tc_loop m rest (chunks1 ++ hardSlices p m) []

/-- The paragraph list of `translate_chunked` of src/index.js:
`[p.strip() for p in text.split("\n") if p.strip()]` over the stripped text. -/
def tc_parts (text : Str) : List Str :=
  ((splitNL (pyStrip text)).map pyStrip).filter (fun p => !p.isEmpty)

/-- The chunks `translate_chunked` of src/index.js passes to the translation
service, one network call each: empty for blank input (the early return
happens before any chunking), otherwise the packing loop's chunks with the
final non-empty buffer flushed. -/
def tc_chunks (text : Str) (m : Nat) : List Str :=
  if pyStrip text = [] then []
  else
    let r := tc_loop m (tc_parts text) [] []
    if r.2 ≠ [] then r.1 ++ [r.2] else r.1

/-- The translator `translate_chunked` of src/index.js with the stateless translation call
abstracted as `tr`: blank input returns empty immediately; otherwise each
chunk is translated independently in order and the results are joined with a
blank line and stripped. -/
def translate_chunked (tr : Str → Str) (text : Str) (m : Nat) : Str :=
  if pyStrip text = [] then []
  else pyStrip (joinSep [nl, nl] ((tc_chunks text m).map tr))

/-- One page of the output document built by `build_translated_pdf`:
either a verbatim copy of source page `i`, or a generated translation page
for source page `i` carrying its 1-based ordinal, the total generated-page
count for that source page, and the shaped text placed into its text box. -/
inductive OutPage where
  | copy : Nat → OutPage
  | gen : Nat → Nat → Nat → Str → OutPage
  deriving DecidableEq

def noTextPlaceholder : Str := str "(No text found on this page)"

def arTranslationPlaceholder : Str := str "(تعذر الحصول على ترجمة)"

def noTextFoundImg : Str := str "(No text found)"

/-- The per-page extracted English text in `build_translated_pdf` of
src/index.js: the stripped extraction result (extraction itself — embedded
text plus OCR — is the external parameter `ex`), with the English placeholder
substituted when it is empty. -/
def page_english (ex : Nat → Str) (i : Nat) : Str :=
  let e := pyStrip (ex i)
  if e = [] then noTextPlaceholder else e

/-- The per-page translated text in `build_translated_pdf` of src/index.js:
the stripped chunked translation of the page's English text, with the Arabic
placeholder substituted when it is empty. -/
def page_arabic (ex : Nat → Str) (tr : Str → Str) (i : Nat) : Str :=
  let a := pyStrip (translate_chunked tr (page_english ex i) 3500)
  if a = [] then arTranslationPlaceholder else a

/-- The pages `build_translated_pdf` of src/index.js emits for source page
`i`: the verbatim copy, then one generated page per chunk of
`split_for_pdf(arabic, 2600)`, each carrying its 1-based ordinal `j`, the
total chunk count, and the chunk shaped by `prepare_arabic_for_pdf`. -/
def page_translation_group (ex : Nat → Str) (tr : Str → Str) (shape : Str → Str) (i : Nat) :
    List OutPage :=
  let chunks := split_for_pdf (page_arabic ex tr i) 2600
  OutPage.copy i ::
    chunks.enum.map (fun jc => OutPage.gen i (jc.1 + 1) chunks.length
      (prepare_arabic_for_pdf shape jc.2))

/-- The page loop of `build_translated_pdf` of src/index.js, appending each
source page's group to the accumulated output document. -/
def build_go (ex : Nat → Str) (tr : Str → Str) (shape : Str → Str) :
    Nat → Nat → List OutPage → List OutPage
  | 0, _, out => out
  | k + 1, i, out => build_go ex tr shape k (i + 1) (out ++ page_translation_group ex tr shape i)

/-- The assembler `build_translated_pdf` of src/index.js over an `n`-page source document,
with extraction, translation and reshaping abstracted. -/
def build_translated_pdf (ex : Nat → Str) (tr : Str → Str) (shape : Str → Str) (n : Nat) :
    List OutPage :=
  build_go ex tr shape n 0 []

/-- A reply sent back through the messaging transport: either a plain text
message or a document with a suggested filename and its content. -/
inductive Reply where
  | text : Str → Reply
  | document : Str → Str → Reply
  deriving DecidableEq

def processingPdfMsg : Str := str "Processing your PDF (OCR + translation)..."

def processingImgMsg : Str := str "Processing image (OCR + translation)..."

/-- The handler `handle_pdf` of src/index.js, as a function of the outcome of the
`build_translated_pdf` call (the only step its try/except wraps): the
processing notice, then on failure a plain-text error message and on success
the translated document. -/
def handle_pdf (buildResult : Except Str Str) : List Reply :=
  Reply.text processingPdfMsg ::
    match buildResult with
    | Except.error e => [Reply.text (str "Failed to process PDF: " ++ e)]
    | Except.ok pdf => [Reply.document (str "translated.pdf") pdf]

/-- The `ocr_and_translate` closure of `handle_image` of src/index.js, with
the OCR output of the image and the translation call abstracted: strip the
OCR text and substitute the English placeholder when empty, then translate in
chunks, strip, and substitute the Arabic placeholder when empty. -/
def ocr_and_translate (ocrText : Str) (tr : Str → Str) : Str × Str :=
  let extracted0 := pyStrip ocrText
  let extracted := if extracted0 = [] then noTextFoundImg else extracted0
  let arabic0 := pyStrip (translate_chunked tr extracted 3500)
  let arabic := if arabic0 = [] then arTranslationPlaceholder else arabic0
  (extracted, arabic)

/-- The handler `handle_image` of src/index.js, as a function of the outcome of its
`ocr_and_translate` call: the processing notice, then on failure a plain-text
error message, and on success either the translated text (when it fits 3500
characters) or a document named `translation_ar.txt` holding it. -/
def handle_image (r : Except Str (Str × Str)) : List Reply :=
  Reply.text processingImgMsg ::
    match r with
    | Except.error e => [Reply.text (str "Failed to process image: " ++ e)]
    | Except.ok pa =>
      if pa.2.length ≤ 3500 then [Reply.text pa.2]
      else [Reply.document (str "translation_ar.txt") pa.2]

/-- The handler `handle_text` of src/index.js, as a function of the outcome of its
`translate_chunked` call.  The handler has no try/except, so a failing
translation propagates as an error out of the handler (no reply is sent);
on success it replies with the translation or the Arabic placeholder. -/
def handle_text (text : Str) (trResult : Except Str Str) : Except Str (List Reply) :=
  if pyStrip text = [] then Except.ok []
  else
    match trResult with
    | Except.error e => Except.error e
    | Except.ok arabic =>
      Except.ok [Reply.text (if arabic = [] then arTranslationPlaceholder else arabic)]

def lowerC (c : Char) : Char :=
  if 'A' ≤ c && c ≤ 'Z' then Char.ofNat (c.toNat + 32) else c

def strEndsWith (u suf : Str) : Bool :=
  u.reverse.take suf.length == suf.reverse

/-- The `/\.(ppt|pptx)$/i` file-name test of the JavaScript document handler. -/
def js_has_ppt_ext (fn : Str) : Bool :=
  strEndsWith (fn.map lowerC) (str ".ppt") || strEndsWith (fn.map lowerC) (str ".pptx")

/-- The output file name of the JavaScript document handler: the PPT/PPTX
extension replaced by `.pdf`. -/
def js_out_name (fn : Str) : Str :=
  if strEndsWith (fn.map lowerC) (str ".pptx") then fn.take (fn.length - 5) ++ str ".pdf"
  else if strEndsWith (fn.map lowerC) (str ".ppt") then fn.take (fn.length - 4) ++ str ".pdf"
  else fn

/-- The `bot.on("document")` handler of the JavaScript bots, as a function of
the file name and the outcome of the conversion workflow (every step sits
inside one try/catch): non-PPT files are rejected with a reason; otherwise
the converting notice, then on failure a plain-text error message, and on
success the converted document and a success notice. -/
def js_document_handler (fn : Str) (conv : Except Str Str) : List Reply :=
  if js_has_ppt_ext fn = false then [Reply.text (str "❌ Only PPT/PPTX files are allowed.")]
  else
    Reply.text (str "⏳ Converting your PPT… (جاري تحويل الملف)") ::
      match conv with
      | Except.error e => [Reply.text (str "❌ Error: " ++ e)]
      | Except.ok pdf =>
        [Reply.document (js_out_name fn) pdf,
         Reply.text (str "✅ Converted successfully (تم التحويل بنجاح)")]

/-! ### Whitespace and trimming lemmas -/

theorem nonWs_append (u v : Str) : nonWs (u ++ v) = nonWs u ++ nonWs v := by
  simp [nonWs]

theorem nonWs_nil : nonWs [] = [] := rfl

theorem nonWs_dropWhile (u : Str) : nonWs (u.dropWhile isWs) = nonWs u := by
  induction u with
  | nil => rfl
  | cons c rest ih =>
    by_cases h : isWs c
    · simp only [List.dropWhile_cons, h, if_pos]
      rw [ih]
      simp [nonWs, h]
    · simp [List.dropWhile_cons, h, nonWs]

theorem nonWs_reverse (u : Str) : nonWs u.reverse = (nonWs u).reverse := by
  simp [nonWs, List.filter_reverse]

theorem nonWs_trimL (u : Str) : nonWs (trimL u) = nonWs u := nonWs_dropWhile u

theorem nonWs_trimR (u : Str) : nonWs (trimR u) = nonWs u := by
  simp [trimR, nonWs_reverse, nonWs_dropWhile]

theorem nonWs_pyStrip (u : Str) : nonWs (pyStrip u) = nonWs u := by
  simp [pyStrip, nonWs_trimR, nonWs_trimL]

theorem dropWhile_length_le (p : Char → Bool) (u : Str) :
    (u.dropWhile p).length ≤ u.length := by
  induction u with
  | nil => exact Nat.le_refl _
  | cons c rest ih =>
    by_cases h : p c
    · simp only [List.dropWhile_cons, h, if_pos]
      exact Nat.le_trans ih (Nat.le_succ _)
    · simp [List.dropWhile_cons, h]

theorem trimL_length_le (u : Str) : (trimL u).length ≤ u.length :=
  dropWhile_length_le _ _

theorem trimR_length_le (u : Str) : (trimR u).length ≤ u.length := by
  simpa [trimR] using dropWhile_length_le isWs u.reverse

theorem pyStrip_length_le (u : Str) : (pyStrip u).length ≤ u.length :=
  le_trans (trimR_length_le _) (trimL_length_le _)

theorem dropWhile_dropWhile (p : Char → Bool) (u : Str) :
    (u.dropWhile p).dropWhile p = u.dropWhile p := by
  induction u with
  | nil => rfl
  | cons c rest ih =>
    by_cases h : p c
    · simpa [List.dropWhile_cons, h] using ih
    · simp [List.dropWhile_cons, h]

theorem trimL_trimL (u : Str) : trimL (trimL u) = trimL u := dropWhile_dropWhile _ _

theorem trimR_trimR (u : Str) : trimR (trimR u) = trimR u := by
  simp [trimR, dropWhile_dropWhile]

theorem trimL_eq_self_not_ws (c : Char) (rest : Str) (h : trimL (c :: rest) = c :: rest) :
    isWs c = false := by
  by_contra hc
  have hc' : isWs c = true := by
    cases hx : isWs c
    · exact absurd hx hc
    · rfl
  have h2 : trimL (c :: rest) = trimL rest := by
    simp [trimL, List.dropWhile_cons, hc']
  have h3 : (trimL rest).length ≤ rest.length := trimL_length_le rest
  rw [h2] at h
  have := congrArg List.length h
  simp at this
  omega

theorem trimL_trimR_of_trimL (v : Str) (h : trimL v = v) : trimL (trimR v) = trimR v := by
  cases v with
  | nil => rfl
  | cons c rest =>
    have hc : isWs c = false := trimL_eq_self_not_ws c rest h
    show trimL (((c :: rest).reverse.dropWhile isWs).reverse) = _
    rw [List.reverse_cons]
    rw [List.dropWhile_append]
    by_cases he : (rest.reverse.dropWhile isWs).isEmpty
    · simp only [he, if_pos]
      simp [trimL, trimR, List.dropWhile_cons, hc, List.reverse_cons, List.dropWhile_append, he]
    · simp only [he, if_neg, Bool.false_eq_true, not_false_iff]
      rw [List.reverse_append]
      simp only [List.reverse_cons, List.reverse_nil, List.nil_append, List.singleton_append]
      simp [trimL, trimR, List.dropWhile_cons, hc, List.reverse_cons, List.dropWhile_append, he]

theorem pyStrip_idem (u : Str) : pyStrip (pyStrip u) = pyStrip u := by
  show trimR (trimL (trimR (trimL u))) = trimR (trimL u)
  rw [trimL_trimR_of_trimL (trimL u) (trimL_trimL u), trimR_trimR]

theorem trimR_append_ws (u : Str) (c : Char) (h : isWs c = true) :
    trimR (u ++ [c]) = trimR u := by
  simp [trimR, List.reverse_append, List.dropWhile_cons, h]

theorem trimL_append_one (u : Str) (c : Char) :
    trimL (u ++ [c]) = if (trimL u).isEmpty then trimL [c] else trimL u ++ [c] := by
  induction u with
  | nil => simp [trimL]
  | cons d rest ih =>
    by_cases h : isWs d
    · simp only [List.cons_append]
      simp [trimL, List.dropWhile_cons, h] at ih ⊢
      exact ih
    · simp [trimL, List.dropWhile_cons, h]

theorem pyStrip_append_ws (u : Str) (c : Char) (h : isWs c = true) :
    pyStrip (u ++ [c]) = pyStrip u := by
  show trimR (trimL (u ++ [c])) = trimR (trimL u)
  rw [trimL_append_one]
  by_cases he : (trimL u).isEmpty
  · rw [if_pos he]
    have h0 : trimL u = [] := List.isEmpty_iff.mp he
    have h1 : trimL [c] = [] := by simp [trimL, List.dropWhile_cons, h]
    rw [h0, h1]
  · rw [if_neg he]
    exact trimR_append_ws _ _ h

theorem pyStrip_nil_of_nonWs_nil (u : Str) (h : nonWs u = []) : pyStrip u = [] := by
  have hall : ∀ c ∈ u, isWs c = true := by
    intro c hc
    by_contra hcc
    have : c ∈ nonWs u := by
      simp [nonWs, List.mem_filter, hc]
      cases hx : isWs c
      · rfl
      · exact absurd hx hcc
    simp [h] at this
  have hL : trimL u = [] := by
    simp [trimL, List.dropWhile_eq_nil_iff]
    intro c hc
    exact hall c hc
  simp [pyStrip, hL, trimR]

/-! ### Splitting and joining lemmas -/

theorem splitNL_ne_nil (u : Str) : splitNL u ≠ [] := by
  cases u with
  | nil => simp [splitNL]
  | cons c rest =>
    rw [splitNL]
    by_cases h : c = nl
    · simp [h]
    · rw [if_neg h]
      cases hs : splitNL rest <;> simp

theorem flatten_splitNL (u : Str) : (splitNL u).flatten = dropNL u := by
  induction u with
  | nil => simp [splitNL, dropNL]
  | cons c rest ih =>
    rw [splitNL]
    by_cases h : c = nl
    · rw [if_pos h]
      have hb : (c != nl) = false := by simp [h]
      simp [dropNL, List.filter_cons, hb]
      simpa [dropNL] using ih
    · rw [if_neg h]
      cases hs : splitNL rest with
      | nil => exact absurd hs (splitNL_ne_nil rest)
      | cons p ps =>
        rw [hs] at ih
        have hb : (c != nl) = true := by simp [h]
        simp only [List.flatten_cons, dropNL, List.filter_cons, hb, if_pos,
          List.cons_append] at ih ⊢
        rw [ih]

theorem nonWs_dropNL (u : Str) : nonWs (dropNL u) = nonWs u := by
  induction u with
  | nil => rfl
  | cons c rest ih =>
    by_cases h : c = nl
    · have hb : (c != nl) = false := by simp [h]
      have hw : isWs c = true := by subst h; decide
      simp [dropNL, nonWs, List.filter_cons, hb, hw] at ih ⊢
      simpa [dropNL, nonWs] using ih
    · have hb : (c != nl) = true := by simp [h]
      by_cases hw : isWs c
      · simp [dropNL, nonWs, List.filter_cons, hb, hw] at ih ⊢
        simpa [dropNL, nonWs] using ih
      · have hw' : isWs c = false := by simpa using hw
        simp [dropNL, nonWs, List.filter_cons, hb, hw'] at ih ⊢
        simpa [dropNL, nonWs] using ih

theorem nonWs_flatten_splitNL (u : Str) : nonWs ((splitNL u).flatten) = nonWs u := by
  rw [flatten_splitNL, nonWs_dropNL]

theorem splitNL_no_nl (u : Str) (h : nl ∉ u) : splitNL u = [u] := by
  induction u with
  | nil => rfl
  | cons c rest ih =>
    have hc : ¬ (c = nl) := fun hc => h (by simp [hc])
    have hr : nl ∉ rest := fun hm => h (List.mem_cons_of_mem c hm)
    rw [splitNL, if_neg hc, ih hr]

theorem splitNL_append_cons (x r : Str) (h : nl ∉ x) :
    splitNL (x ++ nl :: r) = x :: splitNL r := by
  induction x with
  | nil => simp [splitNL]
  | cons c xs ih =>
    have hc : ¬ (c = nl) := fun hc => h (by simp [hc])
    have hx : nl ∉ xs := fun hm => h (List.mem_cons_of_mem c hm)
    rw [List.cons_append, splitNL, if_neg hc, ih hx]

theorem splitNL_joinNL (xs : List Str) (hne : xs ≠ []) (h : ∀ x ∈ xs, nl ∉ x) :
    splitNL (joinNL xs) = xs := by
  induction xs with
  | nil => exact absurd rfl hne
  | cons x t ih =>
    cases t with
    | nil => simpa [joinNL, joinSep] using splitNL_no_nl x (h x (by simp))
    | cons y t2 =>
      have hj : joinNL (x :: y :: t2) = x ++ nl :: joinNL (y :: t2) := by
        simp [joinNL, joinSep]
      rw [hj, splitNL_append_cons x _ (h x (by simp)),
        ih (by simp) (fun z hz => h z (by simp [hz]))]

theorem joinNLt_append (a b : List Str) : joinNLt (a ++ b) = joinNLt a ++ joinNLt b := by
  simp [joinNLt]

theorem joinNLt_cons (x : Str) (t : List Str) :
    joinNLt (x :: t) = x ++ [nl] ++ joinNLt t := by
  simp [joinNLt]

theorem joinNLt_splitNL (u : Str) : joinNLt (splitNL u) = u ++ [nl] := by
  induction u with
  | nil => simp [splitNL, joinNLt]
  | cons c rest ih =>
    rw [splitNL]
    by_cases h : c = nl
    · rw [if_pos h]
      rw [joinNLt_cons, ih]
      simp [h]
    · rw [if_neg h]
      cases hs : splitNL rest with
      | nil => exact absurd hs (splitNL_ne_nil rest)
      | cons p ps =>
        rw [hs] at ih
        rw [joinNLt_cons] at ih ⊢
        simp only [List.cons_append, List.append_assoc] at ih ⊢
        rw [ih]

theorem flatten_pySplitlines (u : Str) : (pySplitlines u).flatten = (splitNL u).flatten := by
  simp only [pySplitlines]
  by_cases h : (splitNL u).getLast? = some []
  · rw [if_pos h]
    have hne : splitNL u ≠ [] := splitNL_ne_nil u
    have hlast : (splitNL u).getLast hne = [] := by
      have := List.getLast?_eq_getLast (splitNL u) hne
      rw [this] at h
      exact Option.some.inj h
    conv_rhs => rw [← List.dropLast_append_getLast hne]
    rw [hlast]
    simp
  · rw [if_neg h]

theorem nonWs_flatten_pySplitlines (u : Str) : nonWs ((pySplitlines u).flatten) = nonWs u := by
  rw [flatten_pySplitlines, nonWs_flatten_splitNL]

theorem pyStrip_joinNLt_pySplitlines (u : Str) :
    pyStrip (joinNLt (pySplitlines u)) = pyStrip u := by
  simp only [pySplitlines]
  by_cases h : (splitNL u).getLast? = some []
  · rw [if_pos h]
    have hne : splitNL u ≠ [] := splitNL_ne_nil u
    have hlast : (splitNL u).getLast hne = [] := by
      have := List.getLast?_eq_getLast (splitNL u) hne
      rw [this] at h
      exact Option.some.inj h
    have hdec : (splitNL u).dropLast ++ [[]] = splitNL u := by
      conv_rhs => rw [← List.dropLast_append_getLast hne]
      rw [hlast]
    have hjoin : joinNLt ((splitNL u).dropLast) ++ [nl] = u ++ [nl] := by
      have := joinNLt_splitNL u
      rw [← hdec, joinNLt_append] at this
      simpa [joinNLt] using this
    have hu : joinNLt ((splitNL u).dropLast) = u := by
      have := congrArg List.dropLast hjoin
      simpa [List.dropLast_concat] using this
    rw [hu]
  · rw [if_neg h, joinNLt_splitNL]
    exact pyStrip_append_ws u nl (by decide)

theorem pySplitlines_joinNL (xs : List Str) (hne : xs ≠ []) (h : ∀ x ∈ xs, nl ∉ x)
    (hlast : xs.getLast? ≠ some []) : pySplitlines (joinNL xs) = xs := by
  simp only [pySplitlines]
  rw [splitNL_joinNL xs hne h, if_neg hlast]

/-! ### Pagination lemmas -/

theorem split_loop_nonWs (m : Nat) : ∀ (lines pages : List Str) (buf : Str),
    nonWs ((split_for_pdf_loop m lines pages buf).flatten)
      = nonWs pages.flatten ++ nonWs buf ++ nonWs lines.flatten := by
  intro lines
  induction lines with
  | nil =>
    intro pages buf
    rw [split_for_pdf_loop]
    by_cases h : pyStrip buf ≠ []
    · rw [if_pos h]
      simp [nonWs_append, nonWs_pyStrip, nonWs_nil]
    · rw [if_neg h]
      push_neg at h
      have hb : nonWs buf = [] := by rw [← nonWs_pyStrip, h]; rfl
      simp [hb, nonWs_nil]
  | cons line rest ih =>
    intro pages buf
    rw [split_for_pdf_loop]
    have hnl : nonWs [nl] = [] := by decide
    by_cases h : buf.length + line.length + 1 ≤ m
    · rw [if_pos h, ih]
      simp [nonWs_append, hnl, List.append_assoc]
    · rw [if_neg h, ih]
      simp [nonWs_append, nonWs_pyStrip, hnl, List.append_assoc]

theorem split_for_pdf_nonWs (text : Str) (m : Nat) :
    nonWs ((split_for_pdf text m).flatten) = nonWs text := by
  simp only [split_for_pdf]
  by_cases h : (pyStrip text).length ≤ m
  · rw [if_pos h]
    by_cases h2 : pyStrip text ≠ []
    · rw [if_pos h2]
      simp [nonWs_pyStrip]
    · rw [if_neg h2]
      push_neg at h2
      have : nonWs text = [] := by rw [← nonWs_pyStrip, h2]; rfl
      simp [this, nonWs_nil]
  · rw [if_neg h, split_loop_nonWs]
    simp [nonWs_flatten_pySplitlines, nonWs_pyStrip, nonWs_nil]

theorem split_for_pdf_ne_nil (text : Str) (m : Nat) : split_for_pdf text m ≠ [] := by
  intro hc
  simp only [split_for_pdf] at hc
  by_cases h : (pyStrip text).length ≤ m
  · rw [if_pos h] at hc
    by_cases h2 : pyStrip text ≠ [] <;> simp [h2] at hc
  · rw [if_neg h] at hc
    have h1 := split_loop_nonWs m (pySplitlines (pyStrip text)) [] []
    rw [hc] at h1
    simp only [List.flatten_nil, nonWs_nil, List.nil_append] at h1
    have h2 : nonWs (pyStrip text) = [] := by
      rw [← nonWs_flatten_pySplitlines (pyStrip text)]
      exact h1.symm
    have h3 : pyStrip (pyStrip text) = [] := pyStrip_nil_of_nonWs_nil _ h2
    rw [pyStrip_idem] at h3
    rw [h3] at h
    simp at h

theorem split_loop_pages_le (m : Nat) : ∀ (lines pages : List Str) (buf : Str),
    (∀ l ∈ lines, l.length ≤ m) → (∀ p ∈ pages, p.length ≤ m) →
    (pyStrip buf).length ≤ m →
    ∀ p ∈ split_for_pdf_loop m lines pages buf, p.length ≤ m := by
  intro lines
  induction lines with
  | nil =>
    intro pages buf _ hp hb p hmem
    rw [split_for_pdf_loop] at hmem
    by_cases h : pyStrip buf ≠ []
    · rw [if_pos h] at hmem
      rcases List.mem_append.mp hmem with h1 | h1
      · exact hp p h1
      · simp at h1
        subst h1
        exact hb
    · rw [if_neg h] at hmem
      exact hp p hmem
  | cons line rest ih =>
    intro pages buf hl hp hb p hmem
    rw [split_for_pdf_loop] at hmem
    by_cases h : buf.length + line.length + 1 ≤ m
    · rw [if_pos h] at hmem
      refine ih pages _ (fun l hl2 => hl l (by simp [hl2])) hp ?_ p hmem
      calc (pyStrip (buf ++ line ++ [nl])).length
          ≤ (buf ++ line ++ [nl]).length := pyStrip_length_le _
        _ = buf.length + line.length + 1 := by
            simp only [List.length_append, List.length_cons, List.length_nil]
        _ ≤ m := h
    · rw [if_neg h] at hmem
      refine ih _ _ (fun l hl2 => hl l (by simp [hl2])) ?_ ?_ p hmem
      · intro q hq
        rcases List.mem_append.mp hq with h1 | h1
        · exact hp q h1
        · simp at h1
          subst h1
          exact hb
      · have heq : pyStrip (line ++ [nl]) = pyStrip line := pyStrip_append_ws line nl (by decide)
        rw [heq]
        exact le_trans (pyStrip_length_le line) (hl line (by simp))

theorem split_loop_segs (m : Nat) : ∀ (lines pages : List Str) (bl : List Str),
    ∃ (gs : List (List Str)) (tail : List Str), split_for_pdf_loop m lines pages (joinNLt bl)
        = pages ++ gs.map (fun g => pyStrip (joinNLt g))
      ∧ gs.flatten ++ tail = bl ++ lines
      ∧ pyStrip (joinNLt tail) = [] := by
  intro lines
  induction lines with
  | nil =>
    intro pages bl
    rw [split_for_pdf_loop]
    by_cases h : pyStrip (joinNLt bl) ≠ []
    · refine ⟨[bl], [], ?_, by simp, rfl⟩
      rw [if_pos h]
      simp
    · refine ⟨[], bl, ?_, by simp, ?_⟩
      · rw [if_neg h]
        simp
      · push_neg at h
        exact h
  | cons line rest ih =>
    intro pages bl
    rw [split_for_pdf_loop]
    by_cases h : (joinNLt bl).length + line.length + 1 ≤ m
    · rw [if_pos h]
      have hb : joinNLt bl ++ line ++ [nl] = joinNLt (bl ++ [line]) := by
        rw [joinNLt_append]
        simp [joinNLt]
      rw [hb]
      obtain ⟨gs, tail, h1, h2, h3⟩ := ih pages (bl ++ [line])
      exact ⟨gs, tail, h1, by simpa [List.append_assoc] using h2, h3⟩
    · rw [if_neg h]
      have hone : line ++ [nl] = joinNLt [line] := by simp [joinNLt]
      rw [hone]
      obtain ⟨gs, tail, h1, h2, h3⟩ := ih (pages ++ [pyStrip (joinNLt bl)]) [line]
      refine ⟨bl :: gs, tail, ?_, ?_, h3⟩
      · rw [h1]
        simp [List.append_assoc]
      · simp only [List.flatten_cons, List.append_assoc, h2]
        simp

/-! ### Chunking lemmas -/

theorem hardSlicesGo_nil (fuel m : Nat) : hardSlicesGo fuel [] m = [] := by
  cases fuel <;> rfl

theorem hardSlicesGo_le (m : Nat) : ∀ (fuel : Nat) (p : Str),
    ∀ c ∈ hardSlicesGo fuel p m, c.length ≤ m := by
  intro fuel
  induction fuel with
  | zero =>
    intro p c hc
    simp [hardSlicesGo] at hc
  | succ f ih =>
    intro p c hc
    cases p with
    | nil => simp [hardSlicesGo] at hc
    | cons a q =>
      rw [hardSlicesGo] at hc
      rcases List.mem_cons.mp hc with h | h
      · subst h
        simp [List.length_take]
      · exact ih _ c h

theorem hardSlicesGo_flatten (m : Nat) (hm : 0 < m) : ∀ (fuel : Nat) (p : Str),
    p.length ≤ fuel → (hardSlicesGo fuel p m).flatten = p := by
  intro fuel
  induction fuel with
  | zero =>
    intro p hp
    have hnil : p = [] := List.length_eq_zero.mp (Nat.le_zero.mp hp)
    subst hnil
    rfl
  | succ f ih =>
    intro p hp
    cases p with
    | nil => rfl
    | cons a q =>
      rw [hardSlicesGo, List.flatten_cons, ih]
      · exact List.take_append_drop m (a :: q)
      · simp only [List.length_drop, List.length_cons]
        simp only [List.length_cons] at hp
        omega

theorem hardSlicesGo_length (m : Nat) (hm : 0 < m) : ∀ (fuel : Nat) (p : Str),
    p.length ≤ fuel → 0 < p.length →
    (hardSlicesGo fuel p m).length = (p.length + m - 1) / m := by
  intro fuel
  induction fuel with
  | zero =>
    intro p hp hpos
    omega
  | succ f ih =>
    intro p hp hpos
    cases p with
    | nil => simp at hpos
    | cons a q =>
      rw [hardSlicesGo, List.length_cons]
      by_cases hle : (a :: q).length ≤ m
      · have hq : (a :: q).drop m = [] := List.drop_eq_nil_of_le hle
        rw [hq, hardSlicesGo_nil]
        simp only [List.length_nil, Nat.zero_add]
        have h1 : 1 * m ≤ (a :: q).length + m - 1 := by
          simp only [List.length_cons] at hle ⊢
          omega
        have h2 : (a :: q).length + m - 1 < (1 + 1) * m := by
          simp only [List.length_cons] at hle ⊢
          omega
        exact (Nat.div_eq_of_lt_le h1 h2).symm
      · push_neg at hle
        have hdroplen : ((a :: q).drop m).length = (a :: q).length - m := by
          simp [List.length_drop]
        rw [ih ((a :: q).drop m)]
        · rw [hdroplen]
          have e1 : (a :: q).length - m + m - 1 = (a :: q).length - 1 := by omega
          have e2 : (a :: q).length + m - 1 = ((a :: q).length - 1) + m := by omega
          rw [e1, e2, Nat.add_div_right _ hm]
        · rw [hdroplen]
          simp only [List.length_cons] at hp ⊢
          omega
        · rw [hdroplen]
          omega

theorem hardSlices_le (p : Str) (m : Nat) : ∀ c ∈ hardSlices p m, c.length ≤ m := by
  intro c hc
  unfold hardSlices at hc
  by_cases h : m = 0
  · simp [h] at hc
  · rw [if_neg h] at hc
    exact hardSlicesGo_le m p.length p c hc

theorem hardSlices_flatten (p : Str) (m : Nat) (hm : 0 < m) : (hardSlices p m).flatten = p := by
  unfold hardSlices
  rw [if_neg (Nat.pos_iff_ne_zero.mp hm)]
  exact hardSlicesGo_flatten m hm p.length p (Nat.le_refl _)

theorem hardSlices_length (p : Str) (m : Nat) (hm : 0 < m) (hp : 0 < p.length) :
    (hardSlices p m).length = (p.length + m - 1) / m := by
  unfold hardSlices
  rw [if_neg (Nat.pos_iff_ne_zero.mp hm)]
  exact hardSlicesGo_length m hm p.length p (Nat.le_refl _) hp

theorem tc_loop_le (m : Nat) : ∀ (parts chunks : List Str) (buf : Str),
    (∀ c ∈ chunks, c.length ≤ m) → buf.length ≤ m →
    (∀ c ∈ (tc_loop m parts chunks buf).1, c.length ≤ m)
      ∧ (tc_loop m parts chunks buf).2.length ≤ m := by
  intro parts
  induction parts with
  | nil =>
    intro chunks buf hc hb
    exact ⟨hc, hb⟩
  | cons p rest ih =>
    intro chunks buf hc hb
    simp only [tc_loop]
    by_cases h : buf.length + p.length + 1 ≤ m
    · rw [if_pos h]
      refine ih chunks _ hc ?_
      calc (pyStrip (buf ++ nl :: p)).length
          ≤ (buf ++ nl :: p).length := pyStrip_length_le _
        _ ≤ m := by
            simp only [List.length_append, List.length_cons]
            omega
    · rw [if_neg h]
      have hc1 : ∀ c ∈ (if buf ≠ [] then chunks ++ [buf] else chunks), c.length ≤ m := by
        by_cases hbuf : buf ≠ []
        · rw [if_pos hbuf]
          intro c hcc
          rcases List.mem_append.mp hcc with h1 | h1
          · exact hc c h1
          · simp at h1
            subst h1
            exact hb
        · rw [if_neg hbuf]
          exact hc
      by_cases h2 : p.length ≤ m
      · rw [if_pos h2]
        exact ih _ p hc1 h2
      · rw [if_neg h2]
        refine ih _ [] ?_ (by simp)
        intro c hcc
        rcases List.mem_append.mp hcc with h1 | h1
        · exact hc1 c h1
        · exact hardSlices_le p m c h1

theorem tc_loop_single_oversized (m : Nat) (t : Str) (h : m < t.length) :
    tc_loop m [t] [] [] = (hardSlices t m, []) := by
  simp only [tc_loop]
  have h1 : ¬ ((List.nil : Str).length + t.length + 1 ≤ m) := by
    simp only [List.length_nil, Nat.zero_add]
    omega
  rw [if_neg h1]
  have h2 : ¬ ((List.nil : Str) ≠ []) := by simp
  rw [if_neg h2]
  have h3 : ¬ (t.length ≤ m) := by omega
  rw [if_neg h3]
  simp only [tc_loop, List.nil_append]

/-! ### Shaper lemmas -/

theorem getD_map_lt (f : Str → Str) : ∀ (L : List Str) (i : Nat), i < L.length →
    (L.map f).getD i [] = f (L.getD i []) := by
  intro L
  induction L with
  | nil =>
    intro i hi
    simp at hi
  | cons a t ih =>
    intro i hi
    cases i with
    | zero => simp
    | succ j =>
      simp only [List.map_cons, List.getD_cons_succ]
      exact ih j (by simpa using hi)

theorem prepare_lines_eq (shape : Str → Str) (text : Str)
    (hshape : ∀ l ∈ pySplitlines text, pyStrip l ≠ [] → nl ∉ shape l ∧ shape l ≠ [])
    (hlast : ∀ l, (pySplitlines text).getLast? = some l → pyStrip l ≠ []) :
    pySplitlines (prepare_arabic_for_pdf shape text)
      = (pySplitlines text).map (fun line => if pyStrip line = [] then [] else shape line) := by
  cases hls : pySplitlines text with
  | nil =>
    simp only [prepare_arabic_for_pdf]
    rw [hls]
    rfl
  | cons a t =>
    have hne : ((a :: t).map (fun line => if pyStrip line = [] then [] else shape line)) ≠ [] := by
      simp
    have hnonl : ∀ x ∈ (a :: t).map (fun line => if pyStrip line = [] then [] else shape line),
        nl ∉ x := by
      intro x hx
      obtain ⟨l, hl, hxe⟩ := List.mem_map.mp hx
      subst hxe
      by_cases hb : pyStrip l = []
      · simp [hb]
      · have hres := (hshape l (hls ▸ hl) hb).1
        simpa [hb] using hres
    have hlast2 : ((a :: t).map (fun line => if pyStrip line = [] then [] else shape line)).getLast?
        ≠ some [] := by
      rw [List.getLast?_map]
      intro hc
      have hsome : ∃ l0, (a :: t).getLast? = some l0 := by
        cases hgl : (a :: t).getLast? with
        | none => simp [List.getLast?] at hgl
        | some v => exact ⟨v, rfl⟩
      obtain ⟨l0, hl0⟩ := hsome
      rw [hl0] at hc
      simp only [Option.map_some'] at hc
      have hmem : l0 ∈ (a :: t) := by
        have hin : l0 ∈ (a :: t).getLast? := by rw [hl0]; rfl
        obtain ⟨hne2, heq2⟩ := List.mem_getLast?_eq_getLast hin
        rw [heq2]
        exact List.getLast_mem hne2
      have hblank : pyStrip l0 ≠ [] := hlast l0 (hls ▸ hl0)
      have := (hshape l0 (hls ▸ hmem) hblank).2
      rw [if_neg hblank] at hc
      exact this (Option.some.inj hc)
    rw [prepare_arabic_for_pdf, hls]
    exact pySplitlines_joinNL _ hne hnonl hlast2

/-! ### Assembly lemmas -/

theorem build_go_eq (ex : Nat → Str) (tr shape : Str → Str) :
    ∀ (k i : Nat) (out : List OutPage),
    build_go ex tr shape k i out
      = out ++ (List.range' i k).flatMap (page_translation_group ex tr shape) := by
  intro k
  induction k with
  | zero =>
    intro i out
    simp [build_go]
  | succ k2 ih =>
    intro i out
    rw [build_go, ih, List.range'_succ]
    simp [List.append_assoc]

theorem page_translation_group_eq (ex : Nat → Str) (tr shape : Str → Str) (i : Nat) :
    page_translation_group ex tr shape i
      = OutPage.copy i :: (split_for_pdf (page_arabic ex tr i) 2600).enum.map
          (fun jc => OutPage.gen i (jc.1 + 1) (split_for_pdf (page_arabic ex tr i) 2600).length
            (prepare_arabic_for_pdf shape jc.2)) := by
  simp only [page_translation_group]

/-! ### The claims -/

/-- Claim C1: the output document built by `build_translated_pdf` is exactly,
for each source page `i` in order, one verbatim copy of page `i` followed
immediately by exactly `K_i` generated translation pages, where `K_i` is the
number of chunks the paginator produced for that page's translated text
(`K_i ≥ 1` even for empty/placeholder text); no reordering or interleaving
across source pages. -/
theorem C1_assembler_page_groups (ex : Nat → Str) (tr shape : Str → Str) (n : Nat) :
    build_translated_pdf ex tr shape n
      = (List.range n).flatMap (page_translation_group ex tr shape)
    ∧ ∀ i : Nat, ∃ gens : List OutPage,
        page_translation_group ex tr shape i = OutPage.copy i :: gens
        ∧ gens.length = (split_for_pdf (page_arabic ex tr i) 2600).length
        ∧ 1 ≤ gens.length
        ∧ ∀ g ∈ gens, ∃ j body, g = OutPage.gen i j gens.length body := by
  constructor
  · rw [build_translated_pdf, build_go_eq, List.range_eq_range']
    rfl
  · intro i
    refine ⟨_, page_translation_group_eq ex tr shape i, ?_, ?_, ?_⟩
    · simp [List.enum_length]
    · have hne := split_for_pdf_ne_nil (page_arabic ex tr i) 2600
      have hpos : 0 < (split_for_pdf (page_arabic ex tr i) 2600).length :=
        List.length_pos.mpr hne
      simpa [List.enum_length] using hpos
    · intro g hg
      obtain ⟨jc, hjc, hge⟩ := List.mem_map.mp hg
      refine ⟨jc.1 + 1, prepare_arabic_for_pdf shape jc.2, ?_⟩
      rw [← hge]
      simp [List.enum_length]

set_option maxHeartbeats 2000000 in
/-- Witness for C1 at a concrete two-page document. -/
theorem C1_assembler_page_groups_witness :
    build_translated_pdf (fun _ => str "Hello") (fun u => u) (fun u => u) 2
      = (List.range 2).flatMap
          (page_translation_group (fun _ => str "Hello") (fun u => u) (fun u => u))
    ∧ ∀ i : Nat, ∃ gens : List OutPage,
        page_translation_group (fun _ => str "Hello") (fun u => u) (fun u => u) i
          = OutPage.copy i :: gens
        ∧ gens.length
            = (split_for_pdf (page_arabic (fun _ => str "Hello") (fun u => u) i) 2600).length
        ∧ 1 ≤ gens.length
        ∧ ∀ g ∈ gens, ∃ j body, g = OutPage.gen i j gens.length body :=
  C1_assembler_page_groups (fun _ => str "Hello") (fun u => u) (fun u => u) 2

/-- Claim C2 counterexample: pagination does not reconstruct the original
content once the rejoin separators (the newlines) are ignored — the leading
whitespace of the source line " cd" is stripped away at a page boundary. -/
theorem C2_counterexample :
    dropNL ((split_for_pdf (str "ab\n cd") 3).flatten) ≠ dropNL (str "ab\n cd") := by
  decide

/-- Claim C2 (amended): for every input and capacity, concatenating the
returned pages preserves exactly the subsequence of non-whitespace characters
of the input, with nothing lost or duplicated; whitespace at page boundaries
and at the ends of the input may be dropped by the per-page strip. -/
theorem C2_amended_content_preserved (text : Str) (maxChars : Nat) :
    nonWs ((split_for_pdf text maxChars).flatten) = nonWs text :=
  split_for_pdf_nonWs text maxChars

/-- Claim C3 counterexample: a single line longer than the capacity is not
wrapped onto the next page — `split_for_pdf "aaaaa" 3` keeps the whole
5-character line inside one page (after an empty flushed page), exceeding the
capacity with no continuation page. -/
theorem C3_counterexample :
    split_for_pdf (str "aaaaa") 3 = [[], str "aaaaa"]
      ∧ ((split_for_pdf (str "aaaaa") 3).getD 1 []).length = 5 := by
  decide

/-- Claim C3 (amended): the paginator splits only at line boundaries — every
page is the stripped newline-join of a consecutive block of source lines, the
blocks partitioning the lines in order (a final whitespace-only block may be
dropped); a line longer than the capacity is never split mid-line but emitted
whole, so every page's length is at most the capacity whenever every source
line's length is. -/
theorem C3_amended_line_boundaries (text : Str) (maxChars : Nat) :
    (∃ (gs : List (List Str)) (tail : List Str),
        split_for_pdf text maxChars = gs.map (fun g => pyStrip (joinNLt g))
      ∧ gs.flatten ++ tail = pySplitlines (pyStrip text)
      ∧ pyStrip (joinNLt tail) = [])
    ∧ ((∀ l ∈ pySplitlines (pyStrip text), l.length ≤ maxChars) →
        ∀ p ∈ split_for_pdf text maxChars, p.length ≤ maxChars) := by
  constructor
  · simp only [split_for_pdf]
    by_cases h : (pyStrip text).length ≤ maxChars
    · rw [if_pos h]
      by_cases h2 : pyStrip text ≠ []
      · rw [if_pos h2]
        refine ⟨[pySplitlines (pyStrip text)], [], ?_, by simp, rfl⟩
        simp only [List.map_cons, List.map_nil]
        rw [pyStrip_joinNLt_pySplitlines, pyStrip_idem]
      · rw [if_neg h2]
        push_neg at h2
        refine ⟨[[]], [], rfl, ?_, rfl⟩
        rw [h2]
        rfl
    · rw [if_neg h]
      obtain ⟨gs, tail, h1, h2, h3⟩ :=
        split_loop_segs maxChars (pySplitlines (pyStrip text)) [] []
      refine ⟨gs, tail, ?_, h2, h3⟩
      have h0 : joinNLt ([] : List (List Char)) = [] := rfl
      rw [h0] at h1
      simpa using h1
  · intro hlines p hp
    simp only [split_for_pdf] at hp
    by_cases h : (pyStrip text).length ≤ maxChars
    · rw [if_pos h] at hp
      by_cases h2 : pyStrip text ≠ []
      · rw [if_pos h2] at hp
        simp at hp
        subst hp
        exact h
      · rw [if_neg h2] at hp
        simp at hp
        subst hp
        simp
    · rw [if_neg h] at hp
      refine split_loop_pages_le maxChars _ [] [] hlines (by simp) ?_ p hp
      exact Nat.zero_le _

/-- Witness for C3 (amended): the unconditional line-boundary decomposition at
the over-capacity line "aaaaa", and the page bound (hypothesis discharged) at
"ab\ncd". -/
theorem C3_amended_line_boundaries_witness :
    (∃ (gs : List (List Str)) (tail : List Str),
        split_for_pdf (str "aaaaa") 3 = gs.map (fun g => pyStrip (joinNLt g))
      ∧ gs.flatten ++ tail = pySplitlines (pyStrip (str "aaaaa"))
      ∧ pyStrip (joinNLt tail) = [])
    ∧ (∀ l ∈ pySplitlines (pyStrip (str "ab\ncd")), l.length ≤ 3)
    ∧ ∀ p ∈ split_for_pdf (str "ab\ncd") 3, p.length ≤ 3 :=
  ⟨(C3_amended_line_boundaries (str "aaaaa") 3).1, by decide,
    (C3_amended_line_boundaries (str "ab\ncd") 3).2 (by decide)⟩

/-- Claim C8: the paginator always returns at least one page, and empty or
whitespace-only input yields exactly a single-element sequence containing one
empty string. -/
theorem C8_paginator_nonempty (text : Str) (maxChars : Nat) (_hm : 0 < maxChars) :
    1 ≤ (split_for_pdf text maxChars).length
    ∧ (pyStrip text = [] → split_for_pdf text maxChars = [[]]) := by
  constructor
  · exact List.length_pos.mpr (split_for_pdf_ne_nil text maxChars)
  · intro h
    simp only [split_for_pdf, h]
    simp

/-- Witness for C8 at a whitespace-only input. -/
theorem C8_paginator_nonempty_witness :
    0 < 5 ∧ (1 ≤ (split_for_pdf (str "  ") 5).length
      ∧ (pyStrip (str "  ") = [] → split_for_pdf (str "  ") 5 = [[]])) :=
  ⟨by decide, C8_paginator_nonempty (str "  ") 5 (by decide)⟩

/-- Claim C4 counterexample: the shaper does not preserve the line count for
every input — a whitespace-only input has one (blank) line, but the output has
none, because `splitlines` + newline-join drops a trailing blank line; the
failure is independent of the external reshaping pass (here the identity). -/
theorem C4_counterexample :
    pyLineCount (prepare_arabic_for_pdf (fun l => l) (str " ")) = 0
      ∧ pyLineCount (str " ") = 1 := by
  decide

/-- Claim C4 (amended): provided the input's final line is not blank (the code
drops one trailing blank line otherwise) and the reshaping pass returns a
non-empty newline-free string on every non-blank line, the shaper preserves
the line count, every blank input line yields a blank output line at the same
index, and every non-blank input line yields its shaped form at the same
index. -/
theorem C4_amended_line_structure (shape : Str → Str) (text : Str)
    (hshape : ∀ l ∈ pySplitlines text, pyStrip l ≠ [] → nl ∉ shape l ∧ shape l ≠ [])
    (hlast : ∀ l, (pySplitlines text).getLast? = some l → pyStrip l ≠ []) :
    pyLineCount (prepare_arabic_for_pdf shape text) = pyLineCount text
    ∧ ∀ i, i < pyLineCount text →
        (pyStrip ((pySplitlines text).getD i []) = [] →
          (pySplitlines (prepare_arabic_for_pdf shape text)).getD i [] = [])
        ∧ (pyStrip ((pySplitlines text).getD i []) ≠ [] →
          (pySplitlines (prepare_arabic_for_pdf shape text)).getD i []
            = shape ((pySplitlines text).getD i [])) := by
  have hchar := prepare_lines_eq shape text hshape hlast
  constructor
  · simp [pyLineCount, hchar]
  · intro i hi
    have hi' : i < (pySplitlines text).length := hi
    rw [hchar, getD_map_lt _ _ _ hi']
    constructor
    · intro hb
      rw [if_pos hb]
    · intro hb
      rw [if_neg hb]

/-- Witness for C4 (amended) at a concrete input with an interior blank line
and the identity reshaping pass. -/
theorem C4_amended_line_structure_witness :
    (∀ l ∈ pySplitlines (str "ab\n\ncd"), pyStrip l ≠ [] →
        nl ∉ (fun u => u) l ∧ (fun u => u) l ≠ [])
    ∧ (∀ l, (pySplitlines (str "ab\n\ncd")).getLast? = some l → pyStrip l ≠ [])
    ∧ (pyLineCount (prepare_arabic_for_pdf (fun u => u) (str "ab\n\ncd"))
        = pyLineCount (str "ab\n\ncd")
      ∧ ∀ i, i < pyLineCount (str "ab\n\ncd") →
          (pyStrip ((pySplitlines (str "ab\n\ncd")).getD i []) = [] →
            (pySplitlines (prepare_arabic_for_pdf (fun u => u) (str "ab\n\ncd"))).getD i [] = [])
          ∧ (pyStrip ((pySplitlines (str "ab\n\ncd")).getD i []) ≠ [] →
            (pySplitlines (prepare_arabic_for_pdf (fun u => u) (str "ab\n\ncd"))).getD i []
              = (fun u => u) ((pySplitlines (str "ab\n\ncd")).getD i []))) :=
  ⟨by decide, by decide,
    C4_amended_line_structure (fun u => u) (str "ab\n\ncd") (by decide) (by decide)⟩

/-- Claim C5: an input that is a single paragraph (no newline inside its
stripped form) longer than the maximum chunk size is chunked into exactly
`ceil(len / m)` fixed-size slices — the chunk list is precisely the hard
fixed-width slicing of the paragraph, with no attempt at word boundaries. -/
theorem C5_oversized_paragraph_hard_split (text : Str) (m : Nat) (hm : 0 < m)
    (hnl : nl ∉ pyStrip text) (hlong : m < (pyStrip text).length) :
    tc_chunks text m = hardSlices (pyStrip text) m
    ∧ (tc_chunks text m).length = ((pyStrip text).length + m - 1) / m := by
  have ht : pyStrip text ≠ [] := by
    intro hc
    rw [hc] at hlong
    simp at hlong
  have hparts : tc_parts text = [pyStrip text] := by
    unfold tc_parts
    rw [splitNL_no_nl _ hnl]
    simp [pyStrip_idem, List.isEmpty_iff, ht]
  have hchunks : tc_chunks text m = hardSlices (pyStrip text) m := by
    simp only [tc_chunks, hparts]
    rw [if_neg ht, tc_loop_single_oversized m (pyStrip text) hlong]
    simp
  refine ⟨hchunks, ?_⟩
  rw [hchunks]
  exact hardSlices_length (pyStrip text) m hm (by omega)

/-- Witness for C5: a 5-character paragraph with chunk size 2 yields
`ceil(5/2) = 3` fixed-size slices. -/
theorem C5_oversized_paragraph_hard_split_witness :
    0 < 2 ∧ nl ∉ pyStrip (str "abcde") ∧ 2 < (pyStrip (str "abcde")).length
    ∧ (tc_chunks (str "abcde") 2 = hardSlices (pyStrip (str "abcde")) 2
      ∧ (tc_chunks (str "abcde") 2).length = ((pyStrip (str "abcde")).length + 2 - 1) / 2) :=
  ⟨by decide, by decide, by decide,
    C5_oversized_paragraph_hard_split (str "abcde") 2 (by decide) (by decide) (by decide)⟩

/-- Claim C6: for empty or whitespace-only input the chunked translator
returns the empty string and passes no chunk at all to the translation call
(no network call occurs). -/
theorem C6_blank_input_no_translation_call (tr : Str → Str) (text : Str) (m : Nat)
    (h : pyStrip text = []) :
    translate_chunked tr text m = [] ∧ tc_chunks text m = [] := by
  constructor
  · simp [translate_chunked, h]
  · simp [tc_chunks, h]

/-- Witness for C6 at a whitespace-only input. -/
theorem C6_blank_input_no_translation_call_witness :
    pyStrip (str "  \n ") = []
    ∧ (translate_chunked (fun u => u) (str "  \n ") 3500 = []
      ∧ tc_chunks (str "  \n ") 3500 = []) :=
  ⟨by decide, C6_blank_input_no_translation_call (fun u => u) (str "  \n ") 3500 (by decide)⟩

/-- Claim C7: for every input and positive maximum chunk size, every chunk
the chunked translator passes to the translation call has length at most the
maximum chunk size. -/
theorem C7_chunks_size_bounded (text : Str) (m : Nat) (_hm : 0 < m) :
    ∀ c ∈ tc_chunks text m, c.length ≤ m := by
  intro c hc
  simp only [tc_chunks] at hc
  by_cases h : pyStrip text = []
  · rw [if_pos h] at hc
    simp at hc
  · rw [if_neg h] at hc
    obtain ⟨h1, h2⟩ := tc_loop_le m (tc_parts text) [] [] (by simp) (by simp)
    by_cases h3 : (tc_loop m (tc_parts text) [] []).2 ≠ []
    · rw [if_pos h3] at hc
      rcases List.mem_append.mp hc with h4 | h4
      · exact h1 c h4
      · simp at h4
        subst h4
        exact h2
    · rw [if_neg h3] at hc
      exact h1 c hc

/-- Witness for C7 at a concrete multi-paragraph input. -/
theorem C7_chunks_size_bounded_witness :
    0 < 2 ∧ ∀ c ∈ tc_chunks (str "abc\nde") 2, c.length ≤ 2 :=
  ⟨by decide, C7_chunks_size_bounded (str "abc\nde") 2 (by decide)⟩

/-- Claim C9 counterexample: a failure of the translation call inside the
plain-text handler is not caught — the handler has no try/except, so the
error propagates out and no plain-text error reply is produced. -/
theorem C9_counterexample :
    handle_text (str "hi") (Except.error (str "boom")) = Except.error (str "boom") := by
  rfl

/-- Claim C9 (amended): pipeline failures in the PDF handler, the image
handler and the JavaScript document handler are caught and reported to the
user as a single plain-text error message, with no document (no partial
output) sent; but a translation failure in the plain-text handler propagates
uncaught and no reply at all is sent. -/
theorem C9_amended_error_reporting (e : Str) :
    handle_pdf (Except.error e)
        = [Reply.text processingPdfMsg, Reply.text (str "Failed to process PDF: " ++ e)]
    ∧ handle_image (Except.error e)
        = [Reply.text processingImgMsg, Reply.text (str "Failed to process image: " ++ e)]
    ∧ (∀ fn : Str, js_has_ppt_ext fn = true →
        js_document_handler fn (Except.error e)
          = [Reply.text (str "⏳ Converting your PPT… (جاري تحويل الملف)"),
             Reply.text (str "❌ Error: " ++ e)])
    ∧ ∀ t : Str, pyStrip t ≠ [] → handle_text t (Except.error e) = Except.error e := by
  refine ⟨rfl, rfl, ?_, ?_⟩
  · intro fn h
    simp [js_document_handler, h]
  · intro t ht
    simp [handle_text, ht]

/-- Witness for C9 (amended) at concrete failures in all four handlers. -/
theorem C9_amended_error_reporting_witness :
    handle_pdf (Except.error (str "boom"))
        = [Reply.text processingPdfMsg, Reply.text (str "Failed to process PDF: " ++ str "boom")]
    ∧ handle_image (Except.error (str "boom"))
        = [Reply.text processingImgMsg,
           Reply.text (str "Failed to process image: " ++ str "boom")]
    ∧ js_document_handler (str "deck.ppt") (Except.error (str "boom"))
        = [Reply.text (str "⏳ Converting your PPT… (جاري تحويل الملف)"),
           Reply.text (str "❌ Error: " ++ str "boom")]
    ∧ handle_text (str "hello") (Except.error (str "boom")) = Except.error (str "boom") := by
  obtain ⟨h1, h2, h3, h4⟩ := C9_amended_error_reporting (str "boom")
  exact ⟨h1, h2, h3 (str "deck.ppt") (by decide), h4 (str "hello") (by decide)⟩

/-- Claim C10: in the image handler, after OCR, translation and placeholder
substitution, a translated string of length at most 3500 is sent as a text
reply equal to that string, and a longer one as a document reply named
`translation_ar.txt` whose content is exactly that string. -/
theorem C10_image_reply_threshold (ocrText : Str) (tr : Str → Str) :
    ((ocr_and_translate ocrText tr).2.length ≤ 3500 →
      handle_image (Except.ok (ocr_and_translate ocrText tr))
        = [Reply.text processingImgMsg, Reply.text (ocr_and_translate ocrText tr).2])
    ∧ (3500 < (ocr_and_translate ocrText tr).2.length →
      handle_image (Except.ok (ocr_and_translate ocrText tr))
        = [Reply.text processingImgMsg,
           Reply.document (str "translation_ar.txt") (ocr_and_translate ocrText tr).2]) := by
  constructor
  · intro h
    simp [handle_image, h]
  · intro h
    have h2 : ¬ ((ocr_and_translate ocrText tr).2.length ≤ 3500) := by omega
    simp [handle_image, h2]

/-- Witness for C10: OCR text "TEST" with the translation call mocked to
return "اختبار" produces a text reply with that translation. -/
theorem C10_image_reply_threshold_witness :
    (ocr_and_translate (str "TEST") (fun _ => str "اختبار")).2.length ≤ 3500
    ∧ handle_image (Except.ok (ocr_and_translate (str "TEST") (fun _ => str "اختبار")))
        = [Reply.text processingImgMsg,
           Reply.text (ocr_and_translate (str "TEST") (fun _ => str "اختبار")).2] :=
  ⟨by decide, (C10_image_reply_threshold (str "TEST") (fun _ => str "اختبار")).1 (by decide)⟩
